import Mathlib

/-!
Shallow embedding of the epochfs core (src/file.rs, src/fs.rs).

Bytes are modelled as lists of naturals, the object store as an association
list from object names to byte strings, and the sqlite `files` table as an
association list from paths to encoded chunk-id blobs.  Async Rust methods
become pure Lean functions with explicit state passing; fallible operations
return Except or Option.  The BLAKE3 digest and the prost protobuf runtime
are external crates, so the digest is a parameter of the development and the
wire encoding is modelled from the spec (section 6) as ordinary protobuf
tag-length-value framing with varints.
-/

/-- Byte strings. -/
abbrev Bytes := List Nat

/-- Association-list lookup used to model both the object store and the
sqlite primary-key lookup. -/
def alookup {α : Type} (k : String) : List (String × α) → Option α
  | [] => none
  | p :: rest => if k = p.1 then some p.2 else alookup k rest

/-- Modelled from the spec: protobuf base-128 varint encoding (little endian,
continuation bit), used by the prost-generated encoders for the messages of
specs/epochfs.proto, which is not under src/. -/
def encodeVarint (n : Nat) : List Nat :=
  if n < 128 then [n]
  else (128 + n % 128) :: encodeVarint (n / 128)
decreasing_by exact Nat.div_lt_self (by omega) (by omega)

/-- Modelled from the spec: varint decoding, returning the value and the
remaining bytes. -/
def decodeVarint : List Nat → Option (Nat × List Nat)
  | [] => none
  | b :: rest =>
    if b < 128 then some (b, rest)
    else
      match decodeVarint rest with
      | some (m, r) => some ((b - 128) + 128 * m, r)
      | none => none

/-- Bytes of a string (one abstract byte per character). -/
def strBytes (s : String) : List Nat := s.data.map Char.toNat

/-- String from bytes. -/
def strOfBytes (l : List Nat) : String := String.mk (l.map Char.ofNat)

/-- Modelled from the spec: encoder for message FileChunks
(repeated string ids = 1): each id is framed as tag 0x0A, varint length,
then the raw bytes. -/
def encodeFileChunks (ids : List String) : List Nat :=
  ids.flatMap (fun id => [10] ++ encodeVarint (strBytes id).length ++ strBytes id)

/-- Modelled from the spec: fuel-indexed decoder loop for FileChunks. -/
def decodeFileChunksAux : Nat → List Nat → Option (List String)
  | _, [] => some []
  | 0, _ :: _ => none
  | fuel + 1, b :: rest =>
    if b = 10 then
      match decodeVarint rest with
      | some (len, r) =>
        if len ≤ r.length then
          match decodeFileChunksAux fuel (r.drop len) with
          | some ids => some (strOfBytes (r.take len) :: ids)
          | none => none
        else none
      | none => none
    else none

/-- Modelled from the spec: decoder for message FileChunks. -/
def decodeFileChunks (bs : List Nat) : Option (List String) :=
  decodeFileChunksAux bs.length bs

namespace specs

/-- Modelled from the spec: message File of specs/epochfs.proto,
string path = 1 and FileChunks chunks = 2 (an optional message field). -/
structure File where
  path : String
  chunks : Option (List String)
deriving DecidableEq, Repr

end specs

/-- Modelled from the spec: encoder for message File: the path as field 1
(tag 0x0A) followed by, when present, the encoded FileChunks as
length-delimited field 2 (tag 0x12). -/
def encodePFile (f : specs.File) : List Nat :=
  [10] ++ encodeVarint (strBytes f.path).length ++ strBytes f.path ++
    (match f.chunks with
     | some ids => [18] ++ encodeVarint (encodeFileChunks ids).length ++ encodeFileChunks ids
     | none => [])

/-- Modelled from the spec: decoder for message File, consuming the whole
input. -/
def decodePFile (bs : List Nat) : Option specs.File :=
  match bs with
  | 10 :: rest =>
    match decodeVarint rest with
    | some (len, r) =>
      if len ≤ r.length then
        match r.drop len with
        | [] => some ⟨strOfBytes (r.take len), none⟩
        | 18 :: rest2 =>
          match decodeVarint rest2 with
          | some (len2, r2) =>
            if len2 = r2.length then
              match decodeFileChunks r2 with
              | some ids => some ⟨strOfBytes (r.take len), some ids⟩
              | none => none
            else none
          | none => none
        | _ => none
      else none
    | none => none
  | _ => none

/-- Modelled from the spec: encoder for message Files
(repeated File files = 1). -/
def encodeFiles (files : List specs.File) : List Nat :=
  files.flatMap (fun f => [10] ++ encodeVarint (encodePFile f).length ++ encodePFile f)

/-- Modelled from the spec: fuel-indexed decoder loop for Files. -/
def decodeFilesAux : Nat → List Nat → Option (List specs.File)
  | _, [] => some []
  | 0, _ :: _ => none
  | fuel + 1, b :: rest =>
    if b = 10 then
      match decodeVarint rest with
      | some (len, r) =>
        if len ≤ r.length then
          match decodePFile (r.take len), decodeFilesAux fuel (r.drop len) with
          | some f, some fs => some (f :: fs)
          | _, _ => none
        else none
      | none => none
    else none

/-- Modelled from the spec: decoder for message Files. -/
def decodeFiles (bs : List Nat) : Option (List specs.File) :=
  decodeFilesAux bs.length bs

/-- Modelled from the spec: encoder for message Checkpoint
(FileChunks chunks = 1, an optional message field; absent when none). -/
def encodeCheckpoint : Option (List String) → List Nat
  | some ids => [10] ++ encodeVarint (encodeFileChunks ids).length ++ encodeFileChunks ids
  | none => []

/-- Modelled from the spec: decoder for message Checkpoint. -/
def decodeCheckpoint (bs : List Nat) : Option (Option (List String)) :=
  match bs with
  | [] => some none
  | 10 :: rest =>
    match decodeVarint rest with
    | some (len, r) =>
      if len = r.length then
        match decodeFileChunks r with
        | some ids => some (some ids)
        | none => none
      else none
    | none => none
  | _ => none

/-- The opendal object store: a map from object names to byte blobs,
modelled as an association list where a write shadows older entries. -/
structure Store where
  entries : List (String × Bytes)
deriving DecidableEq, Repr

/-- Read an object (opendal op.read / op.exists). -/
def Store.read (s : Store) (k : String) : Option Bytes := alookup k s.entries

/-- Write an object, replace-or-create semantics (opendal op.write). -/
def Store.write (s : Store) (k : String) (v : Bytes) : Store :=
  ⟨(k, v) :: s.entries⟩

/-- The empty object store. -/
def Store.empty : Store := ⟨[]⟩

/-- DEFAULT_CHUNK_SIZE from src/file.rs: 8 MiB. -/
def DEFAULT_CHUNK_SIZE : Nat := 8 * 1024 * 1024

/-- Modelled from the spec: chunk_id of src/fs.rs computes the
URL_SAFE_NO_PAD base64 of the blake3 hash of the buffer; both primitives are
external crates, so the composed digest is taken as a parameter. -/
def chunk_id (hash : Bytes → String) (bs : Bytes) : String := hash bs

/-- Object name of a chunk: format "{data_path}/{chunk_id}" with
data_path = "data/". -/
def chunk_path (cid : String) : String := "data/" ++ "/" ++ cid

/-- Object name of a checkpoint: format "{log_path}/{name}.checkpoint" with
log_path = "logs/". -/
def checkpoint_path (name : String) : String :=
  "logs/" ++ "/" ++ name ++ ".checkpoint"

/-- Fs::write_chunk of src/fs.rs: compute the chunk id, upload the bytes
only when no object with that name exists, and return the id.  The boolean
records whether an object-store write was issued. -/
def write_chunk (hash : Bytes → String) (s : Store) (bs : Bytes) :
    String × Store × Bool :=
  let cid := chunk_id hash bs
  if (s.read (chunk_path cid)).isSome then (cid, s, false)
  else (cid, s.write (chunk_path cid) bs, true)

/-- Fs::read_chunk of src/fs.rs. -/
def read_chunk (s : Store) (cid : String) : Option Bytes :=
  s.read (chunk_path cid)

/-- Fs::save_checkpoint of src/fs.rs: encode Checkpoint with
chunks = Some(FileChunks(ids)) and write it under the checkpoint name (the
uuid v7 name generation is external nondeterminism, passed as an argument). -/
def save_checkpoint (s : Store) (chunk_ids : List String) (name : String) :
    Store × String :=
  let bs := encodeCheckpoint (some chunk_ids)
  (s.write (checkpoint_path name) bs, name)

/-- Fs::read_checkpoint of src/fs.rs. -/
def read_checkpoint (s : Store) (name : String) : Option Bytes :=
  s.read (checkpoint_path name)

/-- File of src/file.rs: a path and the ordered chunk-id list.  The fs
back-reference is passed explicitly as the Store argument of the
operations. -/
structure File where
  path : String
  chunks : List String
deriving DecidableEq, Repr

/-- File::write of src/file.rs: upload the buffer through write_chunk and
push the returned chunk id. -/
def File.write (hash : Bytes → String) (s : Store) (f : File) (bs : Bytes) :
    File × Store :=
  let r := write_chunk hash s bs
  (⟨f.path, f.chunks ++ [r.1]⟩, r.2.1)

/-- Loop body of File::sink of src/file.rs, translated statement by
statement: chunks is the queue of pending fragments, size the running
counter.  Returns the final store together with the list of buffers passed
to write_chunk, in call order (the returned chunk ids are discarded, exactly
as in the source).  Note the source updates size with
size += bs.len() - consume_size without first resetting it in the straddle
branch; that behaviour is reproduced here. -/
def sinkGo (hash : Bytes → String) (frags : List Bytes) (chunks : List Bytes)
    (size : Nat) (s : Store) : Store × List Bytes :=
  match frags with
  | [] =>
    if size > 0 then
      let buf := chunks.flatten
      let r := write_chunk hash s buf
      (r.2.1, [buf])
    else (s, [])
  | bs :: rest =>
    if size + bs.length < DEFAULT_CHUNK_SIZE then
      sinkGo hash rest (chunks ++ [bs]) (size + bs.length) s
    else
      let consume := DEFAULT_CHUNK_SIZE - size
      let buf := (chunks ++ [bs.take consume]).flatten
      let r := write_chunk hash s buf
      if consume < bs.length then
        let r2 := sinkGo hash rest [bs.drop consume] (size + (bs.length - consume)) r.2.1
        (r2.1, buf :: r2.2)
      else
        let r2 := sinkGo hash rest [] 0 r.2.1
        (r2.1, buf :: r2.2)

/-- File::sink of src/file.rs: drain the fragment stream through the loop.
The file itself is returned unchanged because the source never touches
self.chunks inside sink. -/
def File.sink (hash : Bytes → String) (s : Store) (f : File)
    (frags : List Bytes) : File × Store × List Bytes :=
  let r := sinkGo hash frags [] 0 s
  (f, r.1, r.2)

/-- Buffers uploaded by the sink loop, as a pure function of the fragment
stream (same recursion as sinkGo with the store threading erased). -/
def sinkUploads (frags : List Bytes) (chunks : List Bytes) (size : Nat) :
    List Bytes :=
  match frags with
  | [] => if size > 0 then [chunks.flatten] else []
  | bs :: rest =>
    if size + bs.length < DEFAULT_CHUNK_SIZE then
      sinkUploads rest (chunks ++ [bs]) (size + bs.length)
    else
      let consume := DEFAULT_CHUNK_SIZE - size
      let buf := (chunks ++ [bs.take consume]).flatten
      if consume < bs.length then
        buf :: sinkUploads rest [bs.drop consume] (size + (bs.length - consume))
      else
        buf :: sinkUploads rest [] 0

/-- Sequential reads of a chunk-id list, concatenated (File::read and
File::stream of src/file.rs). -/
def readGo (s : Store) : List String → Option Bytes
  | [] => some []
  | cid :: rest =>
    match read_chunk s cid with
    | none => none
    | some bs =>
      match readGo s rest with
      | some acc => some (bs ++ acc)
      | none => none

/-- File::read of src/file.rs: concatenation of the chunks, in order. -/
def File.read (s : Store) (f : File) : Option Bytes := readGo s f.chunks

/-- Convenience: a sequence of File::write calls, state threaded. -/
def File.writeAll (hash : Bytes → String) (s : Store) (f : File) :
    List Bytes → File × Store
  | [] => (f, s)
  | bs :: rest =>
    let r := File.write hash s f bs
    File.writeAll hash r.2 r.1 rest

/-- The sqlite files table of src/fs.rs: path TEXT PRIMARY KEY, chunks BLOB,
modelled as an association list in insertion order. -/
structure Db where
  rows : List (String × List Nat)
deriving DecidableEq, Repr

/-- The empty files table (state right after Fs::new). -/
def Db.empty : Db := ⟨[]⟩

/-- Fs::create_file of src/fs.rs: SELECT the path; error if a row exists;
otherwise return a fresh handle.  No row is inserted. -/
def Fs.create_file (db : Db) (path : String) : Except String File :=
  if (alookup path db.rows).isSome then
    .error ("file " ++ path ++ " already exists")
  else .ok ⟨path, []⟩

/-- Fs::check_file of src/fs.rs. -/
def Fs.check_file (db : Db) (path : String) : Bool :=
  (alookup path db.rows).isSome

/-- Fs::commit_file of src/fs.rs: INSERT the path with the encoded
FileChunks blob; the PRIMARY KEY makes the insert fail when the path is
already present. -/
def Fs.commit_file (db : Db) (path : String) (chunk_ids : List String) :
    Except String Db :=
  if (alookup path db.rows).isSome then
    .error "UNIQUE constraint failed: files.path"
  else .ok ⟨db.rows ++ [(path, encodeFileChunks chunk_ids)]⟩

/-- Fs::open_file of src/fs.rs: SELECT the row, decode its FileChunks blob. -/
def Fs.open_file (db : Db) (path : String) : Except String (Option File) :=
  match alookup path db.rows with
  | none => .ok none
  | some blob =>
    match decodeFileChunks blob with
    | none => .error "failed to decode FileChunks"
    | some ids => .ok (some ⟨path, ids⟩)

/-- Row-by-row decoding of the files table (Fs::list_files of src/fs.rs). -/
def listFilesGo : List (String × List Nat) → Except String (List File)
  | [] => .ok []
  | (p, blob) :: rest =>
    match decodeFileChunks blob with
    | none => .error "failed to decode FileChunks"
    | some ids =>
      match listFilesGo rest with
      | .ok fs => .ok (⟨p, ids⟩ :: fs)
      | .error e => .error e

/-- Fs::list_files of src/fs.rs: stream every row, decoding each blob. -/
def Fs.list_files (db : Db) : Except String (List File) :=
  listFilesGo db.rows

/-- File::commit of src/file.rs: persist the path and chunk list through
Fs::commit_file. -/
def File.commit (db : Db) (f : File) : Except String Db :=
  Fs.commit_file db f.path f.chunks

/-- Loop of Fs::commit of src/fs.rs: accumulate specs::File records into
files, adding each encoded length to size; once size is at least 8 MiB,
encode Files(files) and upload it through write_chunk, appending the id.
The source resets files via mem::replace but never resets size; that
behaviour is reproduced here. -/
def commitGo (hash : Bytes → String) (records : List File) (size : Nat)
    (files : List specs.File) (s : Store) (chunk_ids : List String) :
    Store × List String :=
  match records with
  | [] =>
    if files ≠ [] then
      let bs := encodeFiles files
      let r := write_chunk hash s bs
      (r.2.1, chunk_ids ++ [r.1])
    else (s, chunk_ids)
  | r0 :: rest =>
    let f : specs.File := ⟨r0.path, some r0.chunks⟩
    let size2 := size + (encodePFile f).length
    let files2 := files ++ [f]
    if size2 < 8 * 1024 * 1024 then
      commitGo hash rest size2 files2 s chunk_ids
    else
      let bs := encodeFiles files2
      let r := write_chunk hash s bs
      commitGo hash rest size2 [] r.2.1 (chunk_ids ++ [r.1])

/-- Batch partition produced by the commit loop, as a pure function (same
recursion as commitGo with the store threading erased). -/
def commitBatches (records : List File) (size : Nat)
    (files : List specs.File) : List (List specs.File) :=
  match records with
  | [] => if files ≠ [] then [files] else []
  | r0 :: rest =>
    let f : specs.File := ⟨r0.path, some r0.chunks⟩
    let size2 := size + (encodePFile f).length
    let files2 := files ++ [f]
    if size2 < 8 * 1024 * 1024 then commitBatches rest size2 files2
    else files2 :: commitBatches rest size2 []

/-- Fs::commit of src/fs.rs: enumerate the files table, pack it into
files-blob chunks, and save a checkpoint naming their ids. -/
def Fs.commit (hash : Bytes → String) (s : Store) (db : Db) (name : String) :
    Except String (Store × String) :=
  match Fs.list_files db with
  | .error e => .error e
  | .ok records =>
    let r := commitGo hash records 0 [] s []
    .ok (save_checkpoint r.1 r.2 name)

/-- Bulk INSERT of Fs::load of src/fs.rs: one multi-row statement.  An empty
batch yields a malformed VALUES clause, a duplicate path (inside the batch
or against an existing row) violates the primary key; in both cases the
whole statement fails and the table is unchanged. -/
def insertMany (db : Db) (pairs : List (String × List Nat)) :
    Except String Db :=
  if pairs.isEmpty then .error "incomplete VALUES clause"
  else if (pairs.map Prod.fst).Nodup ∧ ∀ q ∈ pairs, alookup q.1 db.rows = none then
    .ok ⟨db.rows ++ pairs⟩
  else .error "UNIQUE constraint failed: files.path"

/-- Chunk loop of Fs::load of src/fs.rs: read each files-blob chunk, decode
it as Files, and bulk-insert the decoded entries, re-encoding each chunk
list. -/
def loadGo (s : Store) (db : Db) : List String → Except String Db
  | [] => .ok db
  | cid :: rest =>
    match read_chunk s cid with
    | none => .error "chunk not found"
    | some chunk =>
      match decodeFiles chunk with
      | none => .error "failed to decode Files"
      | some files =>
        let pairs := files.map
          (fun f => (f.path, encodeFileChunks (f.chunks.getD [])))
        match insertMany db pairs with
        | .ok db2 => loadGo s db2 rest
        | .error e => .error e

/-- Fs::load of src/fs.rs: read and decode the checkpoint, then insert the
contents of every referenced files-blob chunk into the files table. -/
def Fs.load (s : Store) (db : Db) (name : String) : Except String Db :=
  match read_checkpoint s name with
  | none => .error "checkpoint not found"
  | some bs =>
    match decodeCheckpoint bs with
    | none => .error "failed to decode Checkpoint"
    | some cp => loadGo s db (cp.getD [])

/-- Store invariant: every object stored under a chunk path is stored under
the digest of its own content (true of every store whose data objects were
produced by write_chunk). -/
def GoodStore (hash : Bytes → String) (s : Store) : Prop :=
  ∀ cid bs, s.read (chunk_path cid) = some bs → hash bs = cid

/-- Unary run-length code of one byte, used by the concrete digest below. -/
def unaryCode (n : Nat) : List Char := 'b' :: List.replicate n 'a'

/-- Concrete injective digest used to instantiate the hash parameter in
closed statements: each byte becomes a marker followed by a unary run. -/
def testHash (bs : Bytes) : String :=
  String.mk (bs.flatMap unaryCode)

/-- Count the leading run of the letter a, returning the run length and the
remaining characters. -/
def countA : List Char → Nat × List Char
  | 'a' :: rest => ((countA rest).1 + 1, (countA rest).2)
  | l => (0, l)

/-- Fuel-indexed decoder of the unary run-length code, a left inverse of the
encoding used by testHash. -/
def decodeUnary : Nat → List Char → List Nat
  | _, [] => []
  | 0, _ :: _ => []
  | fuel + 1, _ :: rest =>
    (countA rest).1 :: decodeUnary fuel (countA rest).2

/-! Basic lemmas about association-list lookup. -/

theorem alookup_nil {α : Type} (k : String) : alookup (α := α) k [] = none := rfl

theorem alookup_append_of_none {α : Type} (k : String) (l1 l2 : List (String × α))
    (h : alookup k l1 = none) : alookup k (l1 ++ l2) = alookup k l2 := by
  induction l1 with
  | nil => rfl
  | cons p rest ih =>
    by_cases hk : k = p.1
    · simp [alookup, hk] at h
    · simp only [alookup, if_neg hk] at h
      rw [List.cons_append]
      show (if k = p.1 then some p.2 else alookup k (rest ++ l2)) = alookup k l2
      rw [if_neg hk]
      exact ih h

theorem alookup_append_of_some {α : Type} (k : String) (l1 l2 : List (String × α))
    (v : α) (h : alookup k l1 = some v) : alookup k (l1 ++ l2) = some v := by
  induction l1 with
  | nil => simp [alookup] at h
  | cons p rest ih =>
    rw [List.cons_append]
    show (if k = p.1 then some p.2 else alookup k (rest ++ l2)) = some v
    by_cases hk : k = p.1
    · simp only [alookup, if_pos hk] at h
      rw [if_pos hk]
      exact h
    · simp only [alookup, if_neg hk] at h
      rw [if_neg hk]
      exact ih h

theorem alookup_eq_none_iff {α : Type} (k : String) (l : List (String × α)) :
    alookup k l = none ↔ k ∉ l.map Prod.fst := by
  induction l with
  | nil => simp [alookup]
  | cons p rest ih =>
    by_cases hk : k = p.1
    · simp [alookup, hk]
    · simp [alookup, hk, ih]

theorem alookup_isSome_iff {α : Type} (k : String) (l : List (String × α)) :
    (alookup k l).isSome = true ↔ k ∈ l.map Prod.fst := by
  induction l with
  | nil => simp [alookup]
  | cons p rest ih =>
    by_cases hk : k = p.1
    · simp [alookup, hk]
    · simp [alookup, hk, ih]

/-! Round-trip lemmas for the wire encodings. -/

theorem decodeVarint_encodeVarint (n : Nat) (rest : List Nat) :
    decodeVarint (encodeVarint n ++ rest) = some (n, rest) := by
  induction n using Nat.strong_induction_on with
  | _ n ih =>
    rw [encodeVarint]
    by_cases h : n < 128
    · simp [h, decodeVarint]
    · have h2 : n / 128 < n := Nat.div_lt_self (by omega) (by omega)
      rw [if_neg h, List.cons_append]
      show decodeVarint ((128 + n % 128) :: (encodeVarint (n / 128) ++ rest)) = some (n, rest)
      rw [decodeVarint]
      rw [if_neg (by omega)]
      rw [ih _ h2]
      show some (128 + n % 128 - 128 + 128 * (n / 128), rest) = some (n, rest)
      have : 128 + n % 128 - 128 + 128 * (n / 128) = n := by omega
      rw [this]

theorem encodeVarint_length_pos (n : Nat) : 0 < (encodeVarint n).length := by
  rw [encodeVarint]
  by_cases h : n < 128 <;> simp [h]

theorem strOfBytes_strBytes (s : String) : strOfBytes (strBytes s) = s := by
  cases s with
  | mk data =>
    simp [strOfBytes, strBytes, List.map_map, Function.comp_def, Char.ofNat_toNat]

theorem strBytes_length (s : String) : (strBytes s).length = s.data.length := by
  simp [strBytes]

theorem decodeFileChunksAux_encode (ids : List String) (fuel : Nat)
    (h : (encodeFileChunks ids).length ≤ fuel) :
    decodeFileChunksAux fuel (encodeFileChunks ids) = some ids := by
  induction ids generalizing fuel with
  | nil =>
    cases fuel <;> simp [encodeFileChunks, decodeFileChunksAux]
  | cons id rest ih =>
    have henc : encodeFileChunks (id :: rest) =
        10 :: (encodeVarint (strBytes id).length ++
          (strBytes id ++ encodeFileChunks rest)) := by
      simp [encodeFileChunks, List.flatMap_cons]
    rw [henc] at h ⊢
    have hvp := encodeVarint_length_pos (strBytes id).length
    cases fuel with
    | zero => simp at h
    | succ fuel =>
      have h2 : (encodeFileChunks rest).length ≤ fuel := by
        simp only [List.length_cons, List.length_append] at h
        omega
      simp [decodeFileChunksAux, decodeVarint_encodeVarint, List.take_left,
        List.drop_left, strOfBytes_strBytes, ih fuel h2]

theorem decodeFileChunks_encode (ids : List String) :
    decodeFileChunks (encodeFileChunks ids) = some ids :=
  decodeFileChunksAux_encode ids _ le_rfl

theorem decodePFile_encode (f : specs.File) : decodePFile (encodePFile f) = some f := by
  obtain ⟨path, chunks⟩ := f
  cases chunks with
  | none =>
    simp [encodePFile, decodePFile, List.append_assoc, decodeVarint_encodeVarint,
      strOfBytes_strBytes]
  | some ids =>
    simp [encodePFile, decodePFile, List.append_assoc, decodeVarint_encodeVarint,
      List.take_left, List.drop_left, strOfBytes_strBytes, decodeFileChunks_encode]

theorem encodePFile_length_pos (f : specs.File) : 0 < (encodePFile f).length := by
  simp [encodePFile]

theorem decodeFilesAux_encode (files : List specs.File) (fuel : Nat)
    (h : (encodeFiles files).length ≤ fuel) :
    decodeFilesAux fuel (encodeFiles files) = some files := by
  induction files generalizing fuel with
  | nil =>
    cases fuel <;> simp [encodeFiles, decodeFilesAux]
  | cons f rest ih =>
    have henc : encodeFiles (f :: rest) =
        10 :: (encodeVarint (encodePFile f).length ++
          (encodePFile f ++ encodeFiles rest)) := by
      simp [encodeFiles, List.flatMap_cons]
    rw [henc] at h ⊢
    cases fuel with
    | zero => simp at h
    | succ fuel =>
      have h2 : (encodeFiles rest).length ≤ fuel := by
        simp only [List.length_cons, List.length_append] at h
        omega
      simp [decodeFilesAux, decodeVarint_encodeVarint, List.take_left,
        List.drop_left, decodePFile_encode, ih fuel h2]

theorem decodeFiles_encode (files : List specs.File) :
    decodeFiles (encodeFiles files) = some files :=
  decodeFilesAux_encode files _ le_rfl

theorem decodeCheckpoint_encode (cp : Option (List String)) :
    decodeCheckpoint (encodeCheckpoint cp) = some cp := by
  cases cp with
  | none => rfl
  | some ids =>
    simp [encodeCheckpoint, decodeCheckpoint, List.append_assoc,
      decodeVarint_encodeVarint, decodeFileChunks_encode]

/-! The concrete digest testHash is injective. -/

theorem countA_cons_a (t : List Char) :
    countA ('a' :: t) = ((countA t).1 + 1, (countA t).2) := rfl

theorem countA_cons_b (t : List Char) : countA ('b' :: t) = (0, 'b' :: t) := rfl

theorem countA_replicate (n : Nat) (t : List Char) :
    countA (List.replicate n 'a' ++ t) = ((countA t).1 + n, (countA t).2) := by
  induction n with
  | zero => simp
  | succ n ih =>
    rw [List.replicate_succ, List.cons_append, countA_cons_a, ih]
    simp [Nat.add_assoc]

theorem countA_flatMap_unaryCode (l : List Nat) :
    countA (l.flatMap unaryCode) = (0, l.flatMap unaryCode) := by
  cases l <;> rfl

theorem decodeUnary_flatMap (l : List Nat) (fuel : Nat)
    (h : (l.flatMap unaryCode).length ≤ fuel) :
    decodeUnary fuel (l.flatMap unaryCode) = l := by
  induction l generalizing fuel with
  | nil => cases fuel <;> rfl
  | cons n rest ih =>
    rw [List.flatMap_cons] at h ⊢
    cases fuel with
    | zero => exact absurd h (by simp [unaryCode])
    | succ fuel =>
      show decodeUnary (fuel + 1)
        ('b' :: (List.replicate n 'a' ++ rest.flatMap unaryCode)) = n :: rest
      rw [decodeUnary, countA_replicate, countA_flatMap_unaryCode]
      simp only [Nat.zero_add]
      rw [ih fuel (by
        simp only [List.length_append, unaryCode, List.length_cons,
          List.length_replicate] at h
        omega)]

theorem testHash_injective : Function.Injective testHash := by
  intro x y h
  simp only [testHash] at h
  injection h with h
  have hx := decodeUnary_flatMap x (x.flatMap unaryCode).length le_rfl
  have hy := decodeUnary_flatMap y (y.flatMap unaryCode).length le_rfl
  rw [h] at hx
  exact hx.symm.trans hy

/-! Object-name and store lemmas. -/

theorem chunk_path_injective : Function.Injective chunk_path := by
  intro a b h
  have h2 := congrArg String.data h
  simp only [chunk_path, String.data_append] at h2
  exact String.ext (List.append_cancel_left h2)

theorem chunk_path_ne_checkpoint_path (cid name : String) :
    chunk_path cid ≠ checkpoint_path name := by
  intro h
  have h2 := congrArg String.data h
  simp only [chunk_path, checkpoint_path, String.data_append] at h2
  simp at h2

theorem store_read_write_self (s : Store) (k : String) (v : Bytes) :
    (s.write k v).read k = some v := by
  simp [Store.read, Store.write, alookup]

theorem store_read_write_ne (s : Store) (k k2 : String) (v : Bytes)
    (h : k2 ≠ k) : (s.write k v).read k2 = s.read k2 := by
  simp [Store.read, Store.write, alookup, h]

theorem goodStore_empty (hash : Bytes → String) : GoodStore hash Store.empty := by
  intro cid bs h
  simp [Store.read, Store.empty, alookup] at h

/-! Lemmas about write_chunk. -/

theorem write_chunk_fst (hash : Bytes → String) (s : Store) (bs : Bytes) :
    (write_chunk hash s bs).1 = hash bs := by
  simp only [write_chunk, chunk_id]
  split <;> rfl

theorem write_chunk_read_self (hash : Bytes → String) (s : Store) (bs : Bytes)
    (hg : GoodStore hash s) (hinj : Function.Injective hash) :
    (write_chunk hash s bs).2.1.read (chunk_path (hash bs)) = some bs := by
  simp only [write_chunk, chunk_id]
  split
  · next hs =>
    obtain ⟨v, hv⟩ := Option.isSome_iff_exists.mp hs
    have : hash v = hash bs := hg _ _ hv
    have : v = bs := hinj this
    subst this
    exact hv
  · exact store_read_write_self _ _ _

theorem write_chunk_read_mono (hash : Bytes → String) (s : Store) (bs : Bytes)
    (k : String) (v : Bytes) (h : s.read k = some v) :
    (write_chunk hash s bs).2.1.read k = some v := by
  simp only [write_chunk, chunk_id]
  split
  · exact h
  · next hs =>
    by_cases hk : k = chunk_path (hash bs)
    · rw [hk] at h
      simp [h] at hs
    · rw [store_read_write_ne _ _ _ _ hk]
      exact h

theorem goodStore_write_chunk (hash : Bytes → String) (s : Store) (bs : Bytes)
    (hg : GoodStore hash s) : GoodStore hash (write_chunk hash s bs).2.1 := by
  simp only [write_chunk, chunk_id]
  split
  · exact hg
  · intro cid v hv
    by_cases hc : chunk_path cid = chunk_path (hash bs)
    · have hcid : cid = hash bs := chunk_path_injective hc
      rw [show chunk_path cid = chunk_path (hash bs) from hc,
        store_read_write_self] at hv
      cases hv
      exact hcid.symm
    · rw [store_read_write_ne _ _ _ _ hc] at hv
      exact hg _ _ hv

theorem goodStore_write_checkpoint (hash : Bytes → String) (s : Store)
    (name : String) (bs : Bytes) (hg : GoodStore hash s) :
    GoodStore hash (s.write (checkpoint_path name) bs) := by
  intro cid v hv
  rw [store_read_write_ne _ _ _ _ (chunk_path_ne_checkpoint_path cid name)] at hv
  exact hg _ _ hv

/-! Lemmas about the sink loop. -/

theorem rep_append (m n : Nat) (a : Nat) :
    List.replicate m a ++ List.replicate n a = List.replicate (m + n) a :=
  (List.replicate_add m n a).symm

theorem sinkGo_snd (hash : Bytes → String) (frags : List Bytes)
    (chunks : List Bytes) (size : Nat) (s : Store) :
    (sinkGo hash frags chunks size s).2 = sinkUploads frags chunks size := by
  induction frags generalizing chunks size s with
  | nil =>
    simp only [sinkGo, sinkUploads]
    split <;> rfl
  | cons bs rest ih =>
    simp only [sinkGo, sinkUploads]
    split
    · exact ih _ _ _
    · split
      · simp only []
        rw [ih]
      · simp only []
        rw [ih]

theorem sinkUploads_three_3MiB :
    sinkUploads [List.replicate (3 * 1024 * 1024) 6, List.replicate (3 * 1024 * 1024) 6,
      List.replicate (3 * 1024 * 1024) 6] [] 0 =
      [List.replicate (8 * 1024 * 1024) 6, List.replicate (1024 * 1024) 6] := by
  rw [sinkUploads]
  rw [if_pos (by norm_num [DEFAULT_CHUNK_SIZE, List.length_replicate])]
  rw [sinkUploads]
  rw [if_pos (by norm_num [DEFAULT_CHUNK_SIZE, List.length_replicate])]
  rw [sinkUploads]
  rw [if_neg (by norm_num [DEFAULT_CHUNK_SIZE, List.length_replicate])]
  simp only []
  rw [if_pos (by norm_num [DEFAULT_CHUNK_SIZE, List.length_replicate])]
  rw [sinkUploads]
  rw [if_pos (by norm_num [DEFAULT_CHUNK_SIZE, List.length_replicate])]
  norm_num [DEFAULT_CHUNK_SIZE, List.length_replicate, List.take_replicate,
    List.drop_replicate, List.flatten_cons, List.flatten_nil, ← List.replicate_add]

theorem sinkUploads_straddle_6_4_1 :
    sinkUploads [List.replicate (6 * 1024 * 1024) 7, List.replicate (4 * 1024 * 1024) 7,
      List.replicate (1024 * 1024) 7] [] 0 =
      [List.replicate (8 * 1024 * 1024) 7, List.replicate (2 * 1024 * 1024) 7,
        List.replicate (1024 * 1024) 7] := by
  rw [sinkUploads]
  rw [if_pos (by norm_num [DEFAULT_CHUNK_SIZE, List.length_replicate])]
  rw [sinkUploads]
  rw [if_neg (by norm_num [DEFAULT_CHUNK_SIZE, List.length_replicate])]
  simp only []
  rw [if_pos (by norm_num [DEFAULT_CHUNK_SIZE, List.length_replicate])]
  rw [sinkUploads]
  rw [if_neg (by norm_num [DEFAULT_CHUNK_SIZE, List.length_replicate, List.take_replicate,
    List.drop_replicate])]
  simp only []
  rw [if_pos (by norm_num [DEFAULT_CHUNK_SIZE, List.length_replicate, List.take_replicate,
    List.drop_replicate])]
  rw [sinkUploads]
  rw [if_pos (by norm_num [DEFAULT_CHUNK_SIZE, List.length_replicate, List.take_replicate,
    List.drop_replicate])]
  norm_num [DEFAULT_CHUNK_SIZE, List.length_replicate, List.take_replicate,
    List.drop_replicate, List.flatten_cons, List.flatten_nil, ← List.replicate_add]

/-! Lemmas about the commit loop. -/

theorem commitGo_snd (hash : Bytes → String) (records : List File) (size : Nat)
    (files : List specs.File) (s : Store) (acc : List String) :
    (commitGo hash records size files s acc).2 =
      acc ++ (commitBatches records size files).map (fun b => hash (encodeFiles b)) := by
  induction records generalizing size files s acc with
  | nil =>
    simp only [commitGo, commitBatches]
    split
    · simp [write_chunk_fst]
    · simp
  | cons r0 rest ih =>
    simp only [commitGo, commitBatches]
    split
    · exact ih _ _ _ _
    · rw [ih]
      simp [write_chunk_fst, List.append_assoc]

theorem commitGo_read_mono (hash : Bytes → String) (records : List File)
    (size : Nat) (files : List specs.File) (s : Store) (acc : List String)
    (k : String) (v : Bytes) (h : s.read k = some v) :
    (commitGo hash records size files s acc).1.read k = some v := by
  induction records generalizing size files s acc with
  | nil =>
    simp only [commitGo]
    split
    · exact write_chunk_read_mono _ _ _ _ _ h
    · exact h
  | cons r0 rest ih =>
    simp only [commitGo]
    split
    · exact ih _ _ _ _ h
    · exact ih _ _ _ _ (write_chunk_read_mono _ _ _ _ _ h)

theorem commitGo_good (hash : Bytes → String) (records : List File) (size : Nat)
    (files : List specs.File) (s : Store) (acc : List String)
    (hg : GoodStore hash s) : GoodStore hash (commitGo hash records size files s acc).1 := by
  induction records generalizing size files s acc with
  | nil =>
    simp only [commitGo]
    split
    · exact goodStore_write_chunk _ _ _ hg
    · exact hg
  | cons r0 rest ih =>
    simp only [commitGo]
    split
    · exact ih _ _ _ _ hg
    · exact ih _ _ _ _ (goodStore_write_chunk _ _ _ hg)

theorem commitGo_reads (hash : Bytes → String) (records : List File) (size : Nat)
    (files : List specs.File) (s : Store) (acc : List String)
    (hg : GoodStore hash s) (hinj : Function.Injective hash) :
    ∀ b ∈ commitBatches records size files,
      (commitGo hash records size files s acc).1.read
        (chunk_path (hash (encodeFiles b))) = some (encodeFiles b) := by
  induction records generalizing size files s acc with
  | nil =>
    intro b hb
    simp only [commitBatches] at hb
    simp only [commitGo]
    split
    · next hf =>
      rw [if_pos hf] at hb
      simp only [List.mem_singleton] at hb
      subst hb
      exact write_chunk_read_self _ _ _ hg hinj
    · next hf =>
      rw [if_neg hf] at hb
      simp at hb
  | cons r0 rest ih =>
    intro b hb
    simp only [commitBatches] at hb
    simp only [commitGo]
    split
    · next hlt =>
      rw [if_pos hlt] at hb
      exact ih _ _ _ _ hg b hb
    · next hlt =>
      rw [if_neg hlt] at hb
      rcases List.mem_cons.mp hb with hb | hb
      · subst hb
        exact commitGo_read_mono _ _ _ _ _ _ _ _
          (write_chunk_read_self _ _ _ hg hinj)
      · exact ih _ _ _ _ (goodStore_write_chunk _ _ _ hg) b hb

theorem commitBatches_flatten (records : List File) (size : Nat)
    (files : List specs.File) :
    (commitBatches records size files).flatten =
      files ++ records.map (fun r => (⟨r.path, some r.chunks⟩ : specs.File)) := by
  induction records generalizing size files with
  | nil =>
    simp only [commitBatches]
    split
    · simp
    · next hf =>
      simp at hf
      simp [hf]
  | cons r0 rest ih =>
    simp only [commitBatches]
    split
    · rw [ih]
      simp
    · rw [List.flatten_cons, ih]
      simp

theorem commitBatches_ne_nil (records : List File) (size : Nat)
    (files : List specs.File) :
    ∀ b ∈ commitBatches records size files, b ≠ [] := by
  induction records generalizing size files with
  | nil =>
    intro b hb
    simp only [commitBatches] at hb
    split at hb
    · next hf =>
      simp only [List.mem_singleton] at hb
      subst hb
      exact hf
    · simp at hb
  | cons r0 rest ih =>
    intro b hb
    simp only [commitBatches] at hb
    split at hb
    · exact ih _ _ b hb
    · rcases List.mem_cons.mp hb with hb | hb
      · subst hb
        simp
      · exact ih _ _ b hb

/-! Lemmas about the files table and the load loop. -/

theorem listFilesGo_encoded (entries : List (String × List String)) :
    listFilesGo (entries.map (fun e => (e.1, encodeFileChunks e.2))) =
      .ok (entries.map (fun e => (⟨e.1, e.2⟩ : File))) := by
  induction entries with
  | nil => rfl
  | cons e rest ih =>
    simp [listFilesGo, decodeFileChunks_encode, ih]

theorem alookup_map_encoded (entries : List (String × List String)) (p : String)
    (cs : List String) (hnd : (entries.map Prod.fst).Nodup)
    (hmem : (p, cs) ∈ entries) :
    alookup p (entries.map (fun e => (e.1, encodeFileChunks e.2))) =
      some (encodeFileChunks cs) := by
  induction entries with
  | nil => cases hmem
  | cons e rest ih =>
    simp only [List.map_cons, List.nodup_cons] at hnd
    rcases List.mem_cons.mp hmem with hmem | hmem
    · subst hmem
      simp [alookup]
    · have hne : p ≠ e.1 := by
        intro hpe
        exact hnd.1 (hpe ▸ List.mem_map_of_mem Prod.fst hmem)
      simp only [List.map_cons, alookup, if_neg hne]
      exact ih hnd.2 hmem

theorem loadGo_batches (hash : Bytes → String) (batches : List (List specs.File))
    (s : Store) (db : Db)
    (hne : ∀ b ∈ batches, b ≠ [])
    (hread : ∀ b ∈ batches, read_chunk s (hash (encodeFiles b)) = some (encodeFiles b))
    (hnd : (db.rows.map Prod.fst ++ batches.flatten.map specs.File.path).Nodup) :
    loadGo s db (batches.map (fun b => hash (encodeFiles b))) =
      .ok ⟨db.rows ++ batches.flatten.map
        (fun f => (f.path, encodeFileChunks (f.chunks.getD [])))⟩ := by
  induction batches generalizing db with
  | nil => simp [loadGo]
  | cons b rest ih =>
    have hbne : b ≠ [] := hne b (List.mem_cons_self b rest)
    have hflat : (b :: rest).flatten.map specs.File.path =
        b.map specs.File.path ++ rest.flatten.map specs.File.path := by
      simp
    rw [hflat] at hnd
    have hnd2 : ((db.rows.map Prod.fst ++ b.map specs.File.path) ++
        rest.flatten.map specs.File.path).Nodup := by
      rw [List.append_assoc]
      exact hnd
    rw [List.nodup_append] at hnd
    have hb_nodup : (b.map specs.File.path).Nodup :=
      (List.nodup_append.mp hnd.2.1).1
    have hb_fresh : ∀ p ∈ b.map specs.File.path, p ∉ db.rows.map Prod.fst := by
      intro p hp hpk
      exact hnd.2.2 hpk (List.mem_append_left _ hp)
    have hpairs_fst : ((b.map (fun f =>
        (f.path, encodeFileChunks (f.chunks.getD [])))).map Prod.fst) =
        b.map specs.File.path := by
      simp [List.map_map, Function.comp_def]
    have hins : insertMany db (b.map (fun f =>
        (f.path, encodeFileChunks (f.chunks.getD [])))) =
        .ok ⟨db.rows ++ b.map (fun f =>
          (f.path, encodeFileChunks (f.chunks.getD [])))⟩ := by
      simp only [insertMany]
      rw [if_neg (by
        simp only [List.isEmpty_eq_true, List.map_eq_nil_iff]
        simp [hbne])]
      rw [if_pos (by
        refine ⟨by rw [hpairs_fst]; exact hb_nodup, ?_⟩
        intro q hq
        rw [alookup_eq_none_iff]
        have : q.1 ∈ b.map specs.File.path := by
          rw [← hpairs_fst]
          exact List.mem_map_of_mem Prod.fst hq
        exact hb_fresh q.1 this)]
    have hih := ih ⟨db.rows ++ b.map (fun f => (f.path, encodeFileChunks (f.chunks.getD [])))⟩
      (fun b2 hb2 => hne b2 (List.mem_cons_of_mem b hb2))
      (fun b2 hb2 => hread b2 (List.mem_cons_of_mem b hb2))
      (by
        simp only [List.map_append, hpairs_fst]
        exact hnd2)
    rw [List.map_cons]
    simp only [loadGo, hread b (List.mem_cons_self b rest), decodeFiles_encode,
      hins, hih]
    simp

/-! Remaining helper lemmas for the claim theorems. -/

theorem writeAll_chunks_eq (hash : Bytes → String) (s : Store) (f : File)
    (bufs : List Bytes) :
    (File.writeAll hash s f bufs).1.chunks = f.chunks ++ bufs.map hash := by
  induction bufs generalizing s f with
  | nil => simp [File.writeAll]
  | cons bs rest ih =>
    simp only [File.writeAll, File.write]
    rw [ih]
    simp [write_chunk_fst, List.append_assoc]

theorem insertMany_ok (db : Db) (pairs : List (String × List Nat)) (db2 : Db)
    (h : insertMany db pairs = .ok db2) :
    db2.rows = db.rows ++ pairs ∧ ∀ q ∈ pairs, alookup q.1 db.rows = none := by
  simp only [insertMany] at h
  by_cases h1 : pairs.isEmpty
  · simp [h1] at h
  · rw [if_neg h1] at h
    split at h
    · next hcond =>
      refine ⟨?_, hcond.2⟩
      cases h
      rfl
    · cases h

theorem alookup_append_none_left {α : Type} (k : String)
    (l1 l2 : List (String × α)) (h : alookup k (l1 ++ l2) = none) :
    alookup k l1 = none := by
  rw [alookup_eq_none_iff] at h ⊢
  intro hk
  exact h (by simp [hk])

theorem loadGo_appends (s : Store) (ids : List String) (db db2 : Db)
    (h : loadGo s db ids = .ok db2) :
    ∃ added, db2.rows = db.rows ++ added ∧
      ∀ q ∈ added, alookup q.1 db.rows = none := by
  induction ids generalizing db with
  | nil =>
    simp only [loadGo] at h
    cases h
    exact ⟨[], by simp, by simp⟩
  | cons cid rest ih =>
    simp only [loadGo] at h
    cases hrc : read_chunk s cid with
    | none => simp only [hrc] at h; simp at h
    | some chunk =>
      simp only [hrc] at h
      cases hdec : decodeFiles chunk with
      | none => simp only [hdec] at h; simp at h
      | some files =>
        simp only [hdec] at h
        cases hins : insertMany db (files.map
            (fun f => (f.path, encodeFileChunks (f.chunks.getD [])))) with
        | error e => simp only [hins] at h; simp at h
        | ok dbmid =>
          simp only [hins] at h
          obtain ⟨hmid, hmidnone⟩ := insertMany_ok _ _ _ hins
          obtain ⟨added2, h2, h2n⟩ := ih dbmid h
          refine ⟨files.map (fun f => (f.path, encodeFileChunks (f.chunks.getD []))) ++ added2,
            ?_, ?_⟩
          · rw [h2, hmid, List.append_assoc]
          · intro q hq
            rcases List.mem_append.mp hq with hq | hq
            · exact hmidnone q hq
            · have := h2n q hq
              rw [hmid] at this
              exact alookup_append_none_left _ _ _ this

/-! Claim theorems. -/

/-- C3 counterexample: two File::write calls of one byte each (total far below
8 MiB) produce a chunk list of length 2, not 1 — File::write uploads every
buffer immediately instead of buffering until DEFAULT_CHUNK_SIZE. -/
theorem C3_small_writes_two_chunks :
    (File.writeAll testHash Store.empty ⟨"f", []⟩ [[1], [2]]).1.chunks.length = 2 ∧
    (File.writeAll testHash Store.empty ⟨"f", []⟩ [[1], [2]]).1.chunks.length ≠ 1 := by
  constructor
  · rw [writeAll_chunks_eq]
    rfl
  · rw [writeAll_chunks_eq]
    simp

/-- C3 amended: File::write does not buffer: each write(bs) immediately
uploads bs as one chunk and appends exactly one chunk id (the digest of bs),
so a file written by one write call of at most 8 MiB has exactly one chunk,
and k write calls produce k chunks. -/
theorem C3_write_appends_one_id (hash : Bytes → String) (s : Store) (f : File)
    (bufs : List Bytes) :
    (File.writeAll hash s f bufs).1.chunks = f.chunks ++ bufs.map hash ∧
    (File.writeAll hash s f bufs).1.chunks.length = f.chunks.length + bufs.length ∧
    ∀ bs : Bytes, (File.write hash s f bs).1.chunks = f.chunks ++ [hash bs] := by
  refine ⟨writeAll_chunks_eq hash s f bufs, ?_, ?_⟩
  · rw [writeAll_chunks_eq]
    simp
  · intro bs
    simp [File.write, write_chunk_fst]

/-- C5 counterexample: on a fresh Fs, create_file "a" returns a handle, and
since create_file inserts nothing into the files table, the state after the
first call is unchanged, so a second create_file "a" also succeeds and no
AlreadyExists error is produced. -/
theorem C5_double_create_succeeds :
    Fs.create_file Db.empty "a" = .ok ⟨"a", []⟩ ∧
    ¬ ∃ e, Fs.create_file Db.empty "a" = .error e := by
  constructor
  · rfl
  · rintro ⟨e, he⟩
    simp [Fs.create_file, Db.empty, alookup] at he

/-- C5 amended: create_file(p) fails with AlreadyExists exactly when p is
present in the index, which happens only after commit_file(p, _) succeeds;
until the first handle is committed, repeated create_file(p) calls all
succeed. -/
theorem C5_create_fails_iff_committed (db : Db) (p : String)
    (ids : List String) (db2 : Db) :
    (Fs.check_file db p = true → ∃ e, Fs.create_file db p = .error e) ∧
    (Fs.check_file db p = false → Fs.create_file db p = .ok ⟨p, []⟩) ∧
    (Fs.commit_file db p ids = .ok db2 → ∃ e, Fs.create_file db2 p = .error e) := by
  refine ⟨?_, ?_, ?_⟩
  · intro h
    simp only [Fs.check_file] at h
    exact ⟨"file " ++ p ++ " already exists", by simp [Fs.create_file, h]⟩
  · intro h
    simp only [Fs.check_file] at h
    simp [Fs.create_file, h]
  · intro h
    simp only [Fs.commit_file] at h
    by_cases hp : (alookup p db.rows).isSome
    · simp [hp] at h
    · rw [if_neg hp] at h
      cases h
      have hnone : alookup p db.rows = none := Option.not_isSome_iff_eq_none.mp hp
      refine ⟨"file " ++ p ++ " already exists", ?_⟩
      have hlook : alookup p (db.rows ++ [(p, encodeFileChunks ids)]) =
          some (encodeFileChunks ids) := by
        rw [alookup_append_of_none _ _ _ hnone]
        simp [alookup]
      simp [Fs.create_file, hlook]

/-- Witness for the C5 amended theorem at a concrete committed path. -/
theorem C5_create_fails_witness :
    ∃ e, Fs.create_file ⟨[("a", encodeFileChunks ["x"])]⟩ "a" = .error e :=
  (C5_create_fails_iff_committed Db.empty "a" ["x"]
    ⟨[("a", encodeFileChunks ["x"])]⟩).2.2
    (by simp [Fs.commit_file, Db.empty, alookup])

/-- C7: under the collision-freedom assumption on the digest and for a store
whose data objects are stored under their own digests, write_chunk followed
by read_chunk returns the written bytes, equal inputs give an equal chunk
id, and repeating write_chunk with the same content issues no second
object-store write (the exists check elides the upload). -/
theorem C7_chunk_store_roundtrip (hash : Bytes → String) (s : Store)
    (hg : GoodStore hash s) (hinj : Function.Injective hash) (x y : Bytes) :
    read_chunk (write_chunk hash s x).2.1 (write_chunk hash s x).1 = some x ∧
    (x = y → (write_chunk hash s x).1 = (write_chunk hash s y).1) ∧
    (write_chunk hash (write_chunk hash s x).2.1 x).2.2 = false := by
  refine ⟨?_, ?_, ?_⟩
  · rw [write_chunk_fst]
    unfold read_chunk
    exact write_chunk_read_self hash s x hg hinj
  · intro h
    rw [h]
  · have hr := write_chunk_read_self hash s x hg hinj
    generalize hgen : (write_chunk hash s x).2.1 = s2 at hr ⊢
    simp [write_chunk, chunk_id, hr]

/-- Witness for C7 at the empty store and the concrete injective digest. -/
theorem C7_chunk_store_witness :
    Function.Injective testHash ∧ GoodStore testHash Store.empty ∧
    (read_chunk (write_chunk testHash Store.empty [1]).2.1
        (write_chunk testHash Store.empty [1]).1 = some [1] ∧
      ([1] = ([1] : Bytes) → (write_chunk testHash Store.empty [1]).1 =
        (write_chunk testHash Store.empty [1]).1) ∧
      (write_chunk testHash (write_chunk testHash Store.empty [1]).2.1 [1]).2.2 = false) :=
  ⟨testHash_injective, goodStore_empty testHash,
    C7_chunk_store_roundtrip testHash Store.empty (goodStore_empty testHash)
      testHash_injective [1] [1]⟩

/-- C8: inside one session, a successful commit_file(p, cs) makes
open_file(p) return the file (p, cs) — the FileChunks blob decodes back to
exactly cs — and check_file(p) return true. -/
theorem C8_commit_file_open_file (db : Db) (p : String) (cs : List String)
    (db2 : Db) (h : Fs.commit_file db p cs = .ok db2) :
    Fs.open_file db2 p = .ok (some ⟨p, cs⟩) ∧ Fs.check_file db2 p = true := by
  simp only [Fs.commit_file] at h
  by_cases hp : (alookup p db.rows).isSome
  · simp [hp] at h
  · rw [if_neg hp] at h
    cases h
    have hnone : alookup p db.rows = none := Option.not_isSome_iff_eq_none.mp hp
    have hlook : alookup p (db.rows ++ [(p, encodeFileChunks cs)]) =
        some (encodeFileChunks cs) := by
      rw [alookup_append_of_none _ _ _ hnone]
      simp [alookup]
    constructor
    · simp [Fs.open_file, hlook, decodeFileChunks_encode]
    · simp [Fs.check_file, hlook]

/-- Witness for C8 on a fresh files table. -/
theorem C8_commit_file_witness :
    Fs.commit_file Db.empty "a" ["x"] = .ok ⟨[("a", encodeFileChunks ["x"])]⟩ ∧
    (Fs.open_file ⟨[("a", encodeFileChunks ["x"])]⟩ "a" = .ok (some ⟨"a", ["x"]⟩) ∧
      Fs.check_file ⟨[("a", encodeFileChunks ["x"])]⟩ "a" = true) :=
  ⟨by simp [Fs.commit_file, Db.empty, alookup],
    C8_commit_file_open_file Db.empty "a" ["x"] ⟨[("a", encodeFileChunks ["x"])]⟩
      (by simp [Fs.commit_file, Db.empty, alookup])⟩

/-- The load loop fails whenever one of the chunks it is told to read
decodes to a Files batch containing a path already present in the files
table: the bulk insert of that batch (or an earlier failure) aborts the
loop. -/
theorem loadGo_collision (s : Store) (cid : String) (chunk : Bytes)
    (files : List specs.File) (f : specs.File)
    (hrc : read_chunk s cid = some chunk)
    (hdec : decodeFiles chunk = some files)
    (hf : f ∈ files) :
    ∀ (ids : List String) (db : Db), cid ∈ ids → Fs.check_file db f.path = true →
      ∃ e, loadGo s db ids = .error e := by
  intro ids
  induction ids with
  | nil =>
    intro db hmem _
    simp at hmem
  | cons id rest ih =>
    intro db hmem hcheck
    cases hrc1 : read_chunk s id with
    | none => exact ⟨"chunk not found", by simp only [loadGo, hrc1]⟩
    | some chunk1 =>
      cases hdec1 : decodeFiles chunk1 with
      | none => exact ⟨"failed to decode Files", by simp only [loadGo, hrc1, hdec1]⟩
      | some files1 =>
        cases hins : insertMany db (files1.map
            (fun g => (g.path, encodeFileChunks (g.chunks.getD [])))) with
        | error e => exact ⟨e, by simp only [loadGo, hrc1, hdec1, hins]⟩
        | ok db2 =>
          rcases List.mem_cons.mp hmem with heq | hmem2
          · rw [← heq] at hrc1
            rw [hrc] at hrc1
            injection hrc1 with hc1
            subst hc1
            rw [hdec] at hdec1
            injection hdec1 with hf1
            subst hf1
            obtain ⟨_, hfresh⟩ := insertMany_ok _ _ _ hins
            have hpair : (f.path, encodeFileChunks (f.chunks.getD [])) ∈
                files.map (fun g => (g.path, encodeFileChunks (g.chunks.getD []))) :=
              List.mem_map_of_mem _ hf
            have hnone := hfresh _ hpair
            simp [Fs.check_file, hnone] at hcheck
          · have hcheck2 : Fs.check_file db2 f.path = true := by
              obtain ⟨hrows, _⟩ := insertMany_ok _ _ _ hins
              simp only [Fs.check_file] at hcheck ⊢
              obtain ⟨v, hv⟩ := Option.isSome_iff_exists.mp hcheck
              rw [hrows, alookup_append_of_some _ _ _ _ hv]
              rfl
            obtain ⟨e, he⟩ := ih db2 hmem2 hcheck2
            exact ⟨e, by simp only [loadGo, hrc1, hdec1, hins, he]⟩

/-- C9: Fs::load merges into the existing files table rather than replacing
it: on success the prior rows remain as an unchanged prefix (every
previously present path still maps to its old blob) and every row added by
the load had a path that was absent beforehand; and whenever a chunk named
by the checkpoint decodes to an entry whose path collides with a row
already in the table, the load fails. -/
theorem C9_load_merges (s : Store) (db : Db) (name : String) :
    (∀ db2, Fs.load s db name = .ok db2 →
      ∃ added, db2.rows = db.rows ++ added ∧
        (∀ p v, alookup p db.rows = some v → alookup p db2.rows = some v) ∧
        (∀ q ∈ added, alookup q.1 db.rows = none)) ∧
    (∀ (bs : Bytes) (cp : Option (List String)) (cid : String) (chunk : Bytes)
        (files : List specs.File) (f : specs.File),
      read_checkpoint s name = some bs →
      decodeCheckpoint bs = some cp →
      cid ∈ cp.getD [] →
      read_chunk s cid = some chunk →
      decodeFiles chunk = some files →
      f ∈ files →
      Fs.check_file db f.path = true →
      ∃ e, Fs.load s db name = .error e) := by
  constructor
  · intro db2 h
    simp only [Fs.load] at h
    cases hrc : read_checkpoint s name with
    | none => simp only [hrc] at h; simp at h
    | some bs =>
      simp only [hrc] at h
      cases hdec : decodeCheckpoint bs with
      | none => simp only [hdec] at h; simp at h
      | some cp =>
        simp only [hdec] at h
        obtain ⟨added, ha, hn⟩ := loadGo_appends s (cp.getD []) db db2 h
        refine ⟨added, ha, ?_, hn⟩
        intro p v hv
        rw [ha]
        exact alookup_append_of_some _ _ _ _ hv
  · intro bs cp cid chunk files f h1 h2 h3 h4 h5 h6 h7
    simp only [Fs.load, h1, h2]
    exact loadGo_collision s cid chunk files f h4 h5 h6 (cp.getD []) db h3 h7

/-- Witness for C9: a concrete successful load that only appends to the
table, and a concrete load whose checkpoint names a chunk decoding to the
already-present path "a", which fails. -/
theorem C9_load_merges_witness :
    (∃ added, (⟨[("a", [1])]⟩ : Db).rows = (⟨[("a", [1])]⟩ : Db).rows ++ added ∧
      (∀ p v, alookup p (⟨[("a", [1])]⟩ : Db).rows = some v →
        alookup p (⟨[("a", [1])]⟩ : Db).rows = some v) ∧
      (∀ q ∈ added, alookup q.1 (⟨[("a", [1])]⟩ : Db).rows = none)) ∧
    (∃ e, Fs.load ((Store.empty.write (chunk_path "c1")
        [10, 8, 10, 1, 97, 18, 3, 10, 1, 120]).write (checkpoint_path "n")
        [10, 4, 10, 2, 99, 49]) ⟨[("a", [1])]⟩ "n" = .error e) :=
  ⟨(C9_load_merges (Store.write Store.empty (checkpoint_path "n") [10, 0])
      ⟨[("a", [1])]⟩ "n").1 ⟨[("a", [1])]⟩ (by rfl),
    (C9_load_merges ((Store.empty.write (chunk_path "c1")
        [10, 8, 10, 1, 97, 18, 3, 10, 1, 120]).write (checkpoint_path "n")
        [10, 4, 10, 2, 99, 49]) ⟨[("a", [1])]⟩ "n").2
      [10, 4, 10, 2, 99, 49] (some ["c1"]) "c1"
      [10, 8, 10, 1, 97, 18, 3, 10, 1, 120] [⟨"a", some ["x"]⟩] ⟨"a", some ["x"]⟩
      (by decide) (by decide) (by decide) (by decide) (by decide) (by decide)
      (by decide)⟩

/-- C10: commit() on an Fs with an empty index writes no files-blob chunk —
the resulting store is the input store plus exactly one object, the
checkpoint with an empty chunk-id list — and returns the checkpoint name;
loading that checkpoint, or any checkpoint whose chunks field is absent
(empty payload), succeeds and inserts nothing. -/
theorem C10_empty_commit_load (hash : Bytes → String) (s : Store) (db : Db)
    (name : String) :
    Fs.commit hash s Db.empty name =
      .ok (s.write (checkpoint_path name) (encodeCheckpoint (some [])), name) ∧
    Fs.load (s.write (checkpoint_path name) (encodeCheckpoint (some []))) db name =
      .ok db ∧
    Fs.load (s.write (checkpoint_path name) []) db name = .ok db := by
  refine ⟨?_, ?_, ?_⟩
  · rfl
  · simp only [Fs.load, read_checkpoint, store_read_write_self,
      decodeCheckpoint_encode]
    rfl
  · simp only [Fs.load, read_checkpoint, store_read_write_self]
    rfl

/-- Projections of File.sink, proved at generic arguments so that concrete
instances never force evaluation of the loop. -/
theorem file_sink_fst (hash : Bytes → String) (s : Store) (f : File)
    (frags : List Bytes) : (File.sink hash s f frags).1 = f := rfl

theorem file_sink_uploads (hash : Bytes → String) (s : Store) (f : File)
    (frags : List Bytes) :
    (File.sink hash s f frags).2.2 = (sinkGo hash frags [] 0 s).2 := rfl

/-- C1: File::sink discards the ids returned by write_chunk and never
touches self.chunks: sinking three 3 MiB fragments uploads the expected two
chunks (8 MiB then 1 MiB), yet the file handle still has an empty chunk
list, so the subsequent commit records an empty file and opening it yields a
file whose read returns no bytes instead of the 9 MiB that were sunk. -/
theorem C1_sink_discards_chunk_ids (hash : Bytes → String) (s : Store) :
    (File.sink hash s ⟨"hello.txt", []⟩ [List.replicate (3 * 1024 * 1024) 6,
      List.replicate (3 * 1024 * 1024) 6, List.replicate (3 * 1024 * 1024) 6]).1.chunks
      = [] ∧
    (File.sink hash s ⟨"hello.txt", []⟩ [List.replicate (3 * 1024 * 1024) 6,
      List.replicate (3 * 1024 * 1024) 6, List.replicate (3 * 1024 * 1024) 6]).2.2 =
      [List.replicate (8 * 1024 * 1024) 6, List.replicate (1024 * 1024) 6] ∧
    File.commit Db.empty (File.sink hash s ⟨"hello.txt", []⟩
      [List.replicate (3 * 1024 * 1024) 6, List.replicate (3 * 1024 * 1024) 6,
        List.replicate (3 * 1024 * 1024) 6]).1 =
      .ok ⟨[("hello.txt", encodeFileChunks [])]⟩ ∧
    Fs.open_file ⟨[("hello.txt", encodeFileChunks [])]⟩ "hello.txt" =
      .ok (some ⟨"hello.txt", []⟩) ∧
    File.read s ⟨"hello.txt", []⟩ = some [] := by
  refine ⟨?_, ?_, ?_, ?_, rfl⟩
  · rw [file_sink_fst]
  · rw [file_sink_uploads, sinkGo_snd, sinkUploads_three_3MiB]
  · rw [file_sink_fst]
    simp [File.commit, Fs.commit_file, Db.empty, alookup]
  · simp [Fs.open_file, alookup, decodeFileChunks_encode]

/-- C2: the sink loop updates its size counter without resetting it when a
fragment straddles the chunk boundary (size += bs.len() - consume_size keeps
the stale buffered count), so on fragments of 6 MiB, 4 MiB and 1 MiB —
total 11 MiB, above 8 MiB — the uploaded chunks are 8 MiB, 2 MiB and 1 MiB:
the second uploaded chunk is only 2 MiB although it is not the last one. -/
theorem C2_sink_chunk_not_aligned (hash : Bytes → String) (s : Store) :
    (File.sink hash s ⟨"f", []⟩ [List.replicate (6 * 1024 * 1024) 7,
      List.replicate (4 * 1024 * 1024) 7, List.replicate (1024 * 1024) 7]).2.2 =
      [List.replicate (8 * 1024 * 1024) 7, List.replicate (2 * 1024 * 1024) 7,
        List.replicate (1024 * 1024) 7] ∧
    ((File.sink hash s ⟨"f", []⟩ [List.replicate (6 * 1024 * 1024) 7,
      List.replicate (4 * 1024 * 1024) 7, List.replicate (1024 * 1024) 7]).2.2.map
        List.length) = [8 * 1024 * 1024, 2 * 1024 * 1024, 1024 * 1024] := by
  have h : (File.sink hash s ⟨"f", []⟩ [List.replicate (6 * 1024 * 1024) 7,
      List.replicate (4 * 1024 * 1024) 7, List.replicate (1024 * 1024) 7]).2.2 =
      [List.replicate (8 * 1024 * 1024) 7, List.replicate (2 * 1024 * 1024) 7,
        List.replicate (1024 * 1024) 7] := by
    rw [file_sink_uploads, sinkGo_snd, sinkUploads_straddle_6_4_1]
  refine ⟨h, ?_⟩
  rw [h]
  simp only [List.map_cons, List.map_nil, List.length_replicate]

/-! Helper lemmas for the commit size-accounting claim. -/

theorem length_flatMap_replicate {α β : Type} (n : Nat) (x : α) (f : α → List β) :
    ((List.replicate n x).flatMap f).length = n * (f x).length := by
  induction n with
  | zero => simp
  | succ n ih =>
    rw [List.replicate_succ, List.flatMap_cons, List.length_append, ih]
    ring

theorem commitBatches_cons_flush (p : String) (cs : List String)
    (rest : List File) (size : Nat) (files : List specs.File)
    (h : ¬ (size + (encodePFile ⟨p, some cs⟩).length < 8 * 1024 * 1024)) :
    commitBatches (⟨p, cs⟩ :: rest) size files =
      (files ++ [⟨p, some cs⟩]) ::
        commitBatches rest (size + (encodePFile ⟨p, some cs⟩).length) [] := by
  conv_lhs => rw [commitBatches]
  rw [if_neg h]

theorem commitBatches_nil_empty (size : Nat) : commitBatches [] size [] = [] := by
  rw [commitBatches]
  simp

theorem strBytes_b : strBytes "b" = [98] := rfl

theorem strBytes_x : strBytes "x" = [120] := rfl

theorem strBytes_c2 : strBytes "c" = [99] := rfl

theorem strBytes_y : strBytes "y" = [121] := rfl

theorem strBytes_a1 : strBytes "a" = [97] := rfl

theorem encodeVarint_one : encodeVarint 1 = [1] := by
  rw [encodeVarint]
  rfl

theorem encodeVarint_three : encodeVarint 3 = [3] := by
  rw [encodeVarint]
  rfl

theorem encodeVarint_eight : encodeVarint 8 = [8] := by
  rw [encodeVarint]
  rfl

theorem encodeVarint_43 : encodeVarint 43 = [43] := by
  rw [encodeVarint]
  rfl

theorem len_id43 :
    (strBytes "0123456789012345678901234567890123456789012").length = 43 := rfl

theorem encodeFileChunks_bigIds_length :
    (encodeFileChunks (List.replicate 190000
      "0123456789012345678901234567890123456789012")).length = 8550000 := by
  simp only [encodeFileChunks]
  rw [length_flatMap_replicate]
  norm_num [len_id43, encodeVarint_43]

theorem encodePFile_big_lower :
    8 * 1024 * 1024 ≤ (encodePFile ⟨"a", some (List.replicate 190000
      "0123456789012345678901234567890123456789012")⟩).length := by
  simp only [encodePFile, List.length_append, encodeFileChunks_bigIds_length]
  omega

theorem encodeFileChunks_x : encodeFileChunks ["x"] = [10, 1, 120] := by
  simp [encodeFileChunks, strBytes_x, encodeVarint_one]

theorem encodePFile_b : encodePFile ⟨"b", some ["x"]⟩ = [10, 1, 98, 18, 3, 10, 1, 120] := by
  simp [encodePFile, strBytes_b, encodeFileChunks_x, encodeVarint_one,
    encodeVarint_three]

theorem encodeFiles_b_length :
    (encodeFiles [⟨"b", some ["x"]⟩]).length = 10 := by
  simp [encodeFiles, encodePFile_b, encodeVarint_eight]

/-- C4: the commit loop adds each encoded File length to its size counter
and flushes the batch once the counter reaches 8 MiB, but the counter is
never reset after a flush, so after one large entry every following entry is
flushed alone: with a first entry of encoded size above 8 MiB followed by
two small entries, commit uploads three files-blobs whose batches are the
three singletons, and the second blob — not the last one — has encoded size
10 bytes, far below 8 MiB (while the first is above 8 MiB). -/
theorem C4_commit_size_counter_not_reset (hash : Bytes → String) (s : Store) :
    (commitGo hash [⟨"a", List.replicate 190000
        "0123456789012345678901234567890123456789012"⟩,
      ⟨"b", ["x"]⟩, ⟨"c", ["y"]⟩] 0 [] s []).2 =
      [hash (encodeFiles [⟨"a", some (List.replicate 190000
          "0123456789012345678901234567890123456789012")⟩]),
        hash (encodeFiles [⟨"b", some ["x"]⟩]),
        hash (encodeFiles [⟨"c", some ["y"]⟩])] ∧
    8 * 1024 * 1024 ≤ (encodeFiles [⟨"a", some (List.replicate 190000
      "0123456789012345678901234567890123456789012")⟩]).length ∧
    (encodeFiles [⟨"b", some ["x"]⟩]).length < 8 * 1024 * 1024 := by
  have hbig := encodePFile_big_lower
  have hbatches : commitBatches
      [⟨"a", List.replicate 190000 "0123456789012345678901234567890123456789012"⟩,
        ⟨"b", ["x"]⟩, ⟨"c", ["y"]⟩] 0 [] =
      [[⟨"a", some (List.replicate 190000
          "0123456789012345678901234567890123456789012")⟩],
        [⟨"b", some ["x"]⟩], [⟨"c", some ["y"]⟩]] := by
    rw [commitBatches_cons_flush _ _ _ _ _ (by omega)]
    rw [commitBatches_cons_flush _ _ _ _ _ (by omega)]
    rw [commitBatches_cons_flush _ _ _ _ _ (by omega)]
    rw [commitBatches_nil_empty]
    simp only [List.nil_append]
  refine ⟨?_, ?_, ?_⟩
  · rw [commitGo_snd, hbatches]
    simp only [List.map_cons, List.map_nil, List.nil_append]
  · simp only [encodeFiles, List.flatMap_cons, List.flatMap_nil, List.append_nil,
      List.length_append]
    omega
  · rw [encodeFiles_b_length]
    norm_num

set_option maxHeartbeats 2000000 in
/-- C6: after commit() of a files table holding the committed entries, a
fresh Fs over the same store can load the returned checkpoint: the load
succeeds, the resulting files table holds exactly the committed entries with
the same encoded chunk lists, and for every committed path check_file is
true and open_file returns the file with its original chunk list.  The
digest is assumed collision free and the starting store well formed. -/
theorem C6_checkpoint_roundtrip (hash : Bytes → String)
    (hinj : Function.Injective hash) (entries : List (String × List String))
    (hnd : (entries.map Prod.fst).Nodup) (s : Store) (hg : GoodStore hash s)
    (name : String) :
    ∃ s2, Fs.commit hash s ⟨(entries.map (fun e => (e.1, encodeFileChunks e.2)))⟩ name = .ok (s2, name) ∧
      ∃ db2, Fs.load s2 Db.empty name = .ok db2 ∧
        db2.rows = (entries.map (fun e => (e.1, encodeFileChunks e.2))) ∧
        ∀ p cs, (p, cs) ∈ entries →
          Fs.check_file db2 p = true ∧
            Fs.open_file db2 p = .ok (some (⟨p, cs⟩ : File)) := by
  have hlist : Fs.list_files ⟨(entries.map (fun e => (e.1, encodeFileChunks e.2)))⟩ = .ok (entries.map (fun e => (⟨e.1, e.2⟩ : File))) := by
    simp only [Fs.list_files]
    exact listFilesGo_encoded entries
  have hids2 : (commitGo hash (entries.map (fun e => (⟨e.1, e.2⟩ : File))) 0 [] s []).2 = ((commitBatches (entries.map (fun e => (⟨e.1, e.2⟩ : File))) 0 []).map (fun b => hash (encodeFiles b))) := by
    rw [commitGo_snd]
    rfl
  have hcommit : Fs.commit hash s ⟨(entries.map (fun e => (e.1, encodeFileChunks e.2)))⟩ name = .ok ((((commitGo hash (entries.map (fun e => (⟨e.1, e.2⟩ : File))) 0 [] s []).1).write (checkpoint_path name) (encodeCheckpoint (some ((commitBatches (entries.map (fun e => (⟨e.1, e.2⟩ : File))) 0 []).map (fun b => hash (encodeFiles b)))))), name) := by
    simp only [Fs.commit, hlist, save_checkpoint, hids2]
  have hflatten : (commitBatches (entries.map (fun e => (⟨e.1, e.2⟩ : File))) 0 []).flatten =
      entries.map (fun e => (⟨e.1, some e.2⟩ : specs.File)) := by
    rw [commitBatches_flatten]
    rw [List.nil_append, List.map_map]
    rfl
  have hreads : ∀ b ∈ (commitBatches (entries.map (fun e => (⟨e.1, e.2⟩ : File))) 0 []),
      read_chunk (((commitGo hash (entries.map (fun e => (⟨e.1, e.2⟩ : File))) 0 [] s []).1).write (checkpoint_path name) (encodeCheckpoint (some ((commitBatches (entries.map (fun e => (⟨e.1, e.2⟩ : File))) 0 []).map (fun b => hash (encodeFiles b)))))) (hash (encodeFiles b)) = some (encodeFiles b) := by
    intro b hb
    have h1 := commitGo_reads hash (entries.map (fun e => (⟨e.1, e.2⟩ : File))) 0 [] s [] hg hinj b hb
    show Store.read _ (chunk_path (hash (encodeFiles b))) = _
    rw [store_read_write_ne _ _ _ _ (chunk_path_ne_checkpoint_path _ _)]
    exact h1
  have hnd2 : ((Db.empty.rows.map Prod.fst) ++
      (commitBatches (entries.map (fun e => (⟨e.1, e.2⟩ : File))) 0 []).flatten.map specs.File.path).Nodup := by
    rw [hflatten]
    simp only [Db.empty, List.map_nil, List.nil_append, List.map_map]
    exact hnd
  have hload0 := loadGo_batches hash (commitBatches (entries.map (fun e => (⟨e.1, e.2⟩ : File))) 0 []) (((commitGo hash (entries.map (fun e => (⟨e.1, e.2⟩ : File))) 0 [] s []).1).write (checkpoint_path name) (encodeCheckpoint (some ((commitBatches (entries.map (fun e => (⟨e.1, e.2⟩ : File))) 0 []).map (fun b => hash (encodeFiles b)))))) Db.empty
    (commitBatches_ne_nil (entries.map (fun e => (⟨e.1, e.2⟩ : File))) 0 []) hreads hnd2
  have hrows : (commitBatches (entries.map (fun e => (⟨e.1, e.2⟩ : File))) 0 []).flatten.map
      (fun f => (f.path, encodeFileChunks (f.chunks.getD []))) = (entries.map (fun e => (e.1, encodeFileChunks e.2))) := by
    rw [hflatten, List.map_map]
    rfl
  have hload : Fs.load (((commitGo hash (entries.map (fun e => (⟨e.1, e.2⟩ : File))) 0 [] s []).1).write (checkpoint_path name) (encodeCheckpoint (some ((commitBatches (entries.map (fun e => (⟨e.1, e.2⟩ : File))) 0 []).map (fun b => hash (encodeFiles b)))))) Db.empty name = .ok ⟨(entries.map (fun e => (e.1, encodeFileChunks e.2)))⟩ := by
    simp only [Fs.load, read_checkpoint, store_read_write_self,
      decodeCheckpoint_encode, Option.getD_some]
    rw [hload0]
    simp only [Db.empty, List.nil_append, hrows]
  refine ⟨(((commitGo hash (entries.map (fun e => (⟨e.1, e.2⟩ : File))) 0 [] s []).1).write (checkpoint_path name) (encodeCheckpoint (some ((commitBatches (entries.map (fun e => (⟨e.1, e.2⟩ : File))) 0 []).map (fun b => hash (encodeFiles b)))))), hcommit, ⟨(entries.map (fun e => (e.1, encodeFileChunks e.2)))⟩, hload, rfl, ?_⟩
  intro p cs hmem
  have hl := alookup_map_encoded entries p cs hnd hmem
  constructor
  · simp [Fs.check_file, hl]
  · simp [Fs.open_file, hl, decodeFileChunks_encode]

/-- Witness for C6 with one committed entry, the concrete injective digest,
the empty store and a fixed checkpoint name. -/
theorem C6_checkpoint_witness :
    Function.Injective testHash ∧
    ((([("a", ["x"])] : List (String × List String)).map Prod.fst).Nodup) ∧
    GoodStore testHash Store.empty ∧
    (∃ s2, Fs.commit testHash Store.empty
        ⟨([("a", ["x"])] : List (String × List String)).map
          (fun e => (e.1, encodeFileChunks e.2))⟩ "n" = .ok (s2, "n") ∧
      ∃ db2, Fs.load s2 Db.empty "n" = .ok db2 ∧
        db2.rows = ([("a", ["x"])] : List (String × List String)).map
          (fun e => (e.1, encodeFileChunks e.2)) ∧
        ∀ p cs, (p, cs) ∈ ([("a", ["x"])] : List (String × List String)) →
          Fs.check_file db2 p = true ∧
            Fs.open_file db2 p = .ok (some (⟨p, cs⟩ : File))) :=
  ⟨testHash_injective, by decide, goodStore_empty testHash,
    C6_checkpoint_roundtrip testHash testHash_injective [("a", ["x"])] (by decide)
      Store.empty (goodStore_empty testHash) "n"⟩
